import Mathlib

/-!
Verification development for the McgranePalette sample-palette coordinate
mapper of `experiments/lr5816/devices.py` (with its helpers in
`experiments/lr5816/utils.py` and `experiments/lr5816/exceptions.py`).

The palette is a virtual motor mapping a 1D sample number or a 2D grid
index to three physical motor coordinates.  The Python code is embedded
shallowly:

* numpy 3-vectors become the record `Vec3` over `ℚ` (the geometry is exact
  rational arithmetic except for `np.sqrt`, see below);
* Python ints become `ℤ` (so that negative inputs behave as in Python;
  `/` and `%` on `ℤ` in Lean agree with Python's floor division and
  nonnegative remainder for positive divisors);
* the mutable device attributes become the record `PaletteState`; the
  attributes that start as `None` become `Option` fields;
* raising an exception becomes returning `Except PalErr`; the
  `@calibrated` decorator of `utils.py` becomes an explicit guard that
  returns `PalErr.notCalibrated`, and a Python `TypeError` arising from
  arithmetic on an unset (`None`) attribute becomes `PalErr.typeError`;
* `np.sqrt(np.sum((n_pt - start_pt)**2))` is irrational in general, so the
  value of the square root is supplied to `accept_calibration` as the
  explicit parameter `sqrt_len` (instantiated with the exact norm whenever
  a concrete calibration with rational norm is considered);
  `_chip_from_xyz` recomputes the very same expression of the same two
  attributes, which are only ever written atomically together with
  `length_calibrated` in `_accept_calibration`, so it reads the stored
  `length_calibrated` field here;
* `np.round` rounds half to even, embedded as `roundHalfEven`;
* issuing motor move commands (`move_3d`) becomes a pure update of a
  `MotionState` record holding the last commanded target of each motor.

File I/O (`save_calibration` / `load_calibration`), logging, and the
interactive confirmation shell are not modelled; the user's answer to the
overwrite confirmation prompt of `_accept_calibration` is supplied as the
boolean parameter `user_confirms`.
-/

/-- A numpy 3-vector of the palette geometry, with exact rational entries. -/
structure Vec3 where
  x : ℚ
  y : ℚ
  z : ℚ
deriving DecidableEq, Repr

/-- Componentwise vector addition. -/
def Vec3.add (a b : Vec3) : Vec3 := ⟨a.x + b.x, a.y + b.y, a.z + b.z⟩

/-- Componentwise vector subtraction. -/
def Vec3.sub (a b : Vec3) : Vec3 := ⟨a.x - b.x, a.y - b.y, a.z - b.z⟩

/-- Scalar multiplication of a vector (numpy broadcasting `c * v`). -/
def Vec3.smul (a : Vec3) (c : ℚ) : Vec3 := ⟨c * a.x, c * a.y, c * a.z⟩

/-- Componentwise division of a vector by a scalar (numpy `v / c`). -/
def Vec3.divQ (a : Vec3) (c : ℚ) : Vec3 := ⟨a.x / c, a.y / c, a.z / c⟩

/-- Dot product of two 3-vectors (`np.dot`). -/
def Vec3.dot (a b : Vec3) : ℚ := a.x * b.x + a.y * b.y + a.z * b.z

/-- Static configuration of the palette, from `McgranePalette.__init__`:
grid extents `N` (long axis) and `M`, the two spacing constants, and the
per-chip sample counts `chip_dims` along the long axis. -/
structure PaletteConfig where
  N : ℕ
  M : ℕ
  chip_spacing : ℚ
  sample_spacing : ℚ
  chip_dims : List ℕ
deriving DecidableEq, Repr

/-- Number of chip boundaries, zero indexed:
Python `num_chips = len(chip_dims) - 1`. -/
def PaletteConfig.num_chips (cfg : PaletteConfig) : ℕ :=
  cfg.chip_dims.length - 1

/-- Length of the palette in mm, from `__init__`:
`(N - num_chips - 1)*sample_spacing + num_chips*chip_spacing`. -/
def PaletteConfig.plength (cfg : PaletteConfig) : ℚ :=
  ((cfg.N : ℚ) - (cfg.num_chips : ℚ) - 1) * cfg.sample_spacing
    + (cfg.num_chips : ℚ) * cfg.chip_spacing

/-- Fractional excess length per chip boundary, from `__init__`:
`chip_factor = (chip_spacing - sample_spacing)/length`. -/
def PaletteConfig.chip_factor (cfg : PaletteConfig) : ℚ :=
  (cfg.chip_spacing - cfg.sample_spacing) / cfg.plength

/-- Total number of samples: `samples = N * M`. -/
def PaletteConfig.samples (cfg : PaletteConfig) : ℕ := cfg.N * cfg.M

/-- Cumulative sum of the first `k` chip dimensions
(Python `sum(chip_dims[:k])`). -/
def cumsum (dims : List ℕ) (k : ℕ) : ℕ := (dims.take k).sum

/-- Per-chip cumulative fraction of the long axis, from `__init__`:
`chip_dims_percents = [sum(chip_dims[:i+1]) / N for i in range(len(chip_dims))]`. -/
def PaletteConfig.chip_dims_percents (cfg : PaletteConfig) : List ℚ :=
  (List.range cfg.chip_dims.length).map
    (fun i => (cumsum cfg.chip_dims (i + 1) : ℚ) / (cfg.N : ℚ))

/-- Loop body of `McgranePalette._chip_from_i`: scan the chip dimensions,
with `idx` the current chip index and `acc` the sum of the dimensions of
the earlier chips, returning the first `idx` with
`i < sum(chip_dims[:idx+1])`.  Falling off the end of the loop returns
`none` (the Python function implicitly returns `None`). -/
def chip_from_i_go (i : ℤ) : List ℕ → ℕ → ℕ → Option ℕ
  | [], _, _ => none
  | d :: ds, idx, acc =>
      if i < (acc : ℤ) + (d : ℤ) then some idx
      else chip_from_i_go i ds (idx + 1) (acc + d)

/-- `McgranePalette._chip_from_i`: the chip number containing grid
coordinate `i` along the long axis (the body of the decorated method; the
`@calibrated` guard is applied at the call sites that model the decorated
attribute access). -/
def chip_from_i (dims : List ℕ) (i : ℤ) : Option ℕ :=
  chip_from_i_go i dims 0 0

/-- The exceptions that the embedded operations can raise:
`NotCalibratedError` from the `@calibrated` decorator,
`InvalidSampleError` from the bounds checks of `move_1d`/`move_2d`, and a
Python `TypeError` from arithmetic involving an unset (`None`) attribute. -/
inductive PalErr where
  | notCalibrated
  | invalidSample
  | typeError
deriving DecidableEq, Repr

/-- Equality of embedded operation results is decidable, so concrete runs
of the embedded code can be checked by evaluation. -/
instance exceptDecEq {ε α : Type} [DecidableEq ε] [DecidableEq α] :
    DecidableEq (Except ε α)
  | .ok a, .ok b => decidable_of_iff (a = b) (by simp)
  | .ok _, .error _ => .isFalse (by simp)
  | .error _, .ok _ => .isFalse (by simp)
  | .error e, .error f => decidable_of_iff (e = f) (by simp)

/-- Mutable calibration attributes of `McgranePalette`, all initialized to
`None` and the flag to `False` in `__init__`. -/
structure PaletteState where
  calibrated : Bool
  start_pt : Option Vec3
  n_pt : Option Vec3
  m_pt : Option Vec3
  N_hat : Option Vec3
  M_hat : Option Vec3
  length_calibrated : Option ℚ
deriving DecidableEq, Repr

/-- The state of a freshly constructed, never calibrated palette. -/
def initState : PaletteState :=
  { calibrated := false, start_pt := none, n_pt := none, m_pt := none,
    N_hat := none, M_hat := none, length_calibrated := none }

/-- `McgranePalette._accept_calibration`.  When the palette is already
calibrated and `confirm_overwrite` is set, the user is prompted; a negative
answer (`user_confirms = false`) cancels the attempt, returning with the
state untouched.  Otherwise the three points are stored and the basis
vectors recomputed:
`N_hat = ((n_pt - start_pt) * (1 - num_chips*chip_factor)) / (N - 1)`,
`M_hat = (m_pt - start_pt) / (M - 1)`.
`length_calibrated = np.sqrt(np.sum((n_pt - start_pt)**2))` is supplied as
the parameter `sqrt_len` (the square root is irrational in general).  The
final `save_calibration()` call is file I/O and is not modelled. -/
def accept_calibration (cfg : PaletteConfig) (st : PaletteState)
    (start_pt n_pt m_pt : Vec3) (confirm_overwrite user_confirms : Bool)
    (sqrt_len : ℚ) : PaletteState :=
  if st.calibrated && confirm_overwrite && !user_confirms then st
  else
    { calibrated := true
      start_pt := some start_pt
      n_pt := some n_pt
      m_pt := some m_pt
      N_hat := some (((n_pt.sub start_pt).smul
                        (1 - (cfg.num_chips : ℚ) * cfg.chip_factor)).divQ
                      ((cfg.N : ℚ) - 1))
      M_hat := some ((m_pt.sub start_pt).divQ ((cfg.M : ℚ) - 1))
      length_calibrated := some sqrt_len }

/-- `McgranePalette.locate_2d`: the (x,y,z) coordinates of sample `(i,j)`,
`start_pt + i*N_hat + j*M_hat + _chip_from_i(i)*chip_factor*(n_pt - start_pt)`.
This method carries no `@calibrated` decorator; on an uncalibrated palette
the attribute arithmetic on `None` raises a `TypeError` (before the
decorated `_chip_from_i` is ever reached, by left-to-right evaluation), and
when `_chip_from_i` returns `None` (for `i >= N`) the multiplication
`None * chip_factor` raises a `TypeError` as well. -/
def locate_2d (cfg : PaletteConfig) (st : PaletteState) (i j : ℤ) :
    Except PalErr Vec3 :=
  match st.start_pt, st.N_hat, st.M_hat, st.n_pt with
  | some s, some nh, some mh, some npt =>
      if st.calibrated then
        match chip_from_i cfg.chip_dims i with
        | some chip =>
            .ok (((s.add (nh.smul (i : ℚ))).add (mh.smul (j : ℚ))).add
                  ((npt.sub s).smul ((chip : ℚ) * cfg.chip_factor)))
        | none => .error .typeError
      else .error .notCalibrated
  | _, _, _, _ => .error .typeError

/-- The index arithmetic inside `McgranePalette.locate_1d`:
`i = floor(k / M)`, `j = k % M`, and on odd rows (`if i % 2:`) the column
is reversed, `j = (M - j) - 1`. -/
def locate_1d_calc (M : ℕ) (k : ℤ) : ℤ × ℤ :=
  let i : ℤ := k / (M : ℤ)
  let j : ℤ := k % (M : ℤ)
  (i, if i % 2 ≠ 0 then ((M : ℤ) - j) - 1 else j)

/-- `McgranePalette.locate_1d` with its `@calibrated` decorator: the (i,j)
grid index of sample number `k`. -/
def locate_1d (cfg : PaletteConfig) (st : PaletteState) (k : ℤ) :
    Except PalErr (ℤ × ℤ) :=
  if st.calibrated then .ok (locate_1d_calc cfg.M k)
  else .error .notCalibrated

/-- The sample-number formula of the `McgranePalette.position` readback
applied to a grid index `(i, j)`:
`i*M + (M - j - 1 if i % 2 else j)`. -/
def sample_from_index (M : ℕ) (i j : ℤ) : ℤ :=
  i * (M : ℤ) + (if i % 2 ≠ 0 then (M : ℤ) - j - 1 else j)

/-- Last commanded target of each of the three motors; `none` means no
move command has been issued to that motor. -/
structure MotionState where
  x_target : Option ℚ
  y_target : Option ℚ
  z_target : Option ℚ
deriving DecidableEq, Repr

/-- `McgranePalette.move_3d`: issue a move command to each of the x, y and
z motors with the corresponding coordinate of the target. -/
def move_3d (ms : MotionState) (v : Vec3) : MotionState :=
  { x_target := some v.x, y_target := some v.y, z_target := some v.z }

/-- Result of a `move_1d`/`move_2d` call: the motion state after the call
together with the exception raised, if any (a raised exception leaves the
motion state exactly as it was when the raise happened). -/
structure MoveResult where
  motion : MotionState
  err : Option PalErr
deriving DecidableEq, Repr

/-- `McgranePalette.move_2d` with its `@calibrated` decorator: move to
grid index `(i, j)`, raising `InvalidSampleError` unless
`0 <= i < N and 0 <= j < M`, and otherwise moving to `locate_2d(i, j)`. -/
def move_2d (cfg : PaletteConfig) (st : PaletteState) (ms : MotionState)
    (i j : ℤ) : MoveResult :=
  if !st.calibrated then ⟨ms, some .notCalibrated⟩
  else if ¬(0 ≤ i ∧ i < (cfg.N : ℤ) ∧ 0 ≤ j ∧ j < (cfg.M : ℤ)) then
    ⟨ms, some .invalidSample⟩
  else
    match locate_2d cfg st i j with
    | .ok v => ⟨move_3d ms v, none⟩
    | .error e => ⟨ms, some e⟩

/-- `McgranePalette.move_1d` with its `@calibrated` decorator: move to
sample number `k`, raising `InvalidSampleError` unless
`0 <= k < samples`, and otherwise moving to `move_2d(*locate_1d(k))`. -/
def move_1d (cfg : PaletteConfig) (st : PaletteState) (ms : MotionState)
    (k : ℤ) : MoveResult :=
  if !st.calibrated then ⟨ms, some .notCalibrated⟩
  else if ¬(0 ≤ k ∧ k < (cfg.samples : ℤ)) then ⟨ms, some .invalidSample⟩
  else
    match locate_1d cfg st k with
    | .ok ij => move_2d cfg st ms ij.1 ij.2
    | .error e => ⟨ms, some e⟩

/-- `np.round`: round half to even (banker's rounding), on exact
rationals. -/
def roundHalfEven (q : ℚ) : ℤ :=
  let f : ℤ := q.floor
  let frac : ℚ := q - (f : ℚ)
  if frac < 1/2 then f
  else if 1/2 < frac then f + 1
  else if f % 2 = 0 then f else f + 1

/-- Loop of `McgranePalette._chip_from_xyz` over
`chip_dims_percents[::-1]`: the first reversed entry strictly below the
completed fraction determines the chip, `min(num_chips - i + 1, num_chips)`;
falling through returns 0. -/
def chip_from_xyz_scan (num_chips : ℕ) (pc : ℚ) :
    List ℚ → ℕ → ℕ
  | [], _ => 0
  | v :: vs, i =>
      if v < pc then min (num_chips + 1 - i) num_chips
      else chip_from_xyz_scan num_chips pc vs (i + 1)

/-- `McgranePalette._chip_from_xyz` (body of the decorated method): the
chip number inferred from physical coordinates, via the fraction
`np.dot(coordinates - start_pt, N_hat) / np.sqrt(np.sum((n_pt - start_pt)**2))`
of the long axis completed.  The denominator recomputes exactly the
expression stored as `length_calibrated` at calibration time (the two
attributes it reads are only written there), so it is read from the state. -/
def chip_from_xyz (cfg : PaletteConfig) (l : ℚ) (s nh : Vec3)
    (coords : Vec3) : ℕ :=
  chip_from_xyz_scan cfg.num_chips ((coords.sub s).dot nh / l)
    cfg.chip_dims_percents.reverse 0

/-- `McgranePalette.index` readback with its `@calibrated` decorator: the
(i,j) grid index inferred from physical coordinates `coords`, as
`np.round(np.dot(coords - start_pt, NM_hat) - [chip*chip_factor*length_calibrated, 0])`
clamped from above by `np.minimum(.., [N-1, M-1])` (the `np.dot` with the
3×2 matrix `NM_hat` is the pair of dot products with `N_hat` and `M_hat`;
`.astype(int)` is the identity on the already-integral rounded values). -/
def index_rb (cfg : PaletteConfig) (st : PaletteState) (coords : Vec3) :
    Except PalErr (ℤ × ℤ) :=
  if !st.calibrated then .error .notCalibrated
  else
    match st.start_pt, st.N_hat, st.M_hat, st.length_calibrated with
    | some s, some nh, some mh, some l =>
        let chip : ℕ := chip_from_xyz cfg l s nh coords
        let d : Vec3 := coords.sub s
        let ri : ℤ := roundHalfEven (d.dot nh - (chip : ℚ) * cfg.chip_factor * l)
        let rj : ℤ := roundHalfEven (d.dot mh)
        .ok (min ri ((cfg.N : ℤ) - 1), min rj ((cfg.M : ℤ) - 1))
    | _, _, _, _ => .error .typeError

/-- `McgranePalette.position` readback with its `@calibrated` decorator:
the sample number `i*M + (M - j - 1 if i % 2 else j)` of the index
readback. -/
def position_rb (cfg : PaletteConfig) (st : PaletteState) (coords : Vec3) :
    Except PalErr ℤ :=
  match index_rb cfg st coords with
  | .ok ij => .ok (sample_from_index cfg.M ij.1 ij.2)
  | .error e => .error e

/-- `McgranePalette.remaining` readback with its `@calibrated` decorator:
`samples - position - 1`. -/
def remaining_rb (cfg : PaletteConfig) (st : PaletteState) (coords : Vec3) :
    Except PalErr ℤ :=
  if !st.calibrated then .error .notCalibrated
  else
    match position_rb cfg st coords with
    | .ok p => .ok ((cfg.samples : ℤ) - p - 1)
    | .error e => .error e

/-- `McgranePalette.chip` readback with its `@calibrated` decorator:
`int(_chip_from_xyz(coordinates))`. -/
def chip_rb (cfg : PaletteConfig) (st : PaletteState) (coords : Vec3) :
    Except PalErr ℕ :=
  if !st.calibrated then .error .notCalibrated
  else
    match st.start_pt, st.N_hat, st.length_calibrated with
    | some s, some nh, some l => .ok (chip_from_xyz cfg l s nh coords)
    | _, _, _ => .error .typeError

/-! ### Shared concrete instances for witnesses -/

/-- The default configuration of `McgranePalette.__init__`:
`N = 24*3 + 8 = 80`, `M = 23`, `chip_spacing = 2.4`, `sample_spacing = 1.0`,
`chip_dims = [8, 24, 24, 24]`. -/
def cfgDefault : PaletteConfig :=
  { N := 80, M := 23, chip_spacing := 12/5, sample_spacing := 1,
    chip_dims := [8, 24, 24, 24] }

/-- A minimal single-chip configuration (no chip boundaries, so the chip
correction factor is zero): a 2×2 grid with one chip of 2 columns. -/
def cfgSmall : PaletteConfig :=
  { N := 2, M := 2, chip_spacing := 1, sample_spacing := 1,
    chip_dims := [2] }

/-- A small two-chip configuration: a 4×2 grid, chips of 2 and 2 columns,
chip spacing twice the sample spacing. -/
def cfgTwoChip : PaletteConfig :=
  { N := 4, M := 2, chip_spacing := 2, sample_spacing := 1,
    chip_dims := [2, 2] }

/-- A calibrated state over `cfgSmall`: the identity-like calibration with
origin `(0,0,0)`, long-axis corner `(1,0,0)`, short-axis corner `(0,1,0)`,
whose long-axis norm is exactly 1. -/
def stSmall : PaletteState :=
  accept_calibration cfgSmall initState ⟨0, 0, 0⟩ ⟨1, 0, 0⟩ ⟨0, 1, 0⟩
    false false 1

/-! ### Claim theorems -/

/-- C1: Snake-path round-trip — for every grid with `N` rows and `M`
columns and every sample number `k` with `0 ≤ k < N*M`, converting `k` to a
grid index by the snake rule of `locate_1d` and converting that index back
to a sample number with the `position` readback formula yields `k` again. -/
theorem snake_round_trip (N M : ℕ) (k : ℤ) (h0 : 0 ≤ k)
    (hk : k < (N : ℤ) * (M : ℤ)) :
    sample_from_index M (locate_1d_calc M k).1 (locate_1d_calc M k).2 = k := by
  have hM : 0 < (M : ℤ) := by
    rcases Nat.eq_zero_or_pos M with h | h
    · subst h; simp at hk; omega
    · exact_mod_cast h
  have hdm := Int.ediv_add_emod k (M : ℤ)
  unfold sample_from_index locate_1d_calc
  simp only
  split_ifs with h1
  · linear_combination hdm
  · linear_combination hdm

/-- Closed instance of the round-trip at `N = 80`, `M = 23`, `k = 24`. -/
theorem snake_round_trip_witness :
    (0 : ℤ) ≤ 24 ∧ (24 : ℤ) < (80 : ℕ) * (23 : ℕ) ∧
      sample_from_index 23 (locate_1d_calc 23 24).1 (locate_1d_calc 23 24).2
        = 24 :=
  ⟨by decide, by decide, snake_round_trip 80 23 24 (by decide) (by decide)⟩

/-- C4: Calibration overwrite atomicity — when the palette is already
calibrated and a new calibration is attempted with the overwrite
confirmation prompt answered negatively, the attempt is cancelled and the
whole prior calibration state (in particular `start_pt`, `n_pt`, `m_pt`
and `N_hat`) is returned untouched. -/
theorem calibration_overwrite_denied (cfg : PaletteConfig)
    (st : PaletteState) (s n m : Vec3) (sqrt_len : ℚ)
    (h : st.calibrated = true) :
    accept_calibration cfg st s n m true false sqrt_len = st := by
  unfold accept_calibration
  simp [h]

/-- Closed instance of the overwrite denial: re-calibrating `stSmall`
with different points and a declined confirmation leaves it unchanged. -/
theorem calibration_overwrite_denied_witness :
    stSmall.calibrated = true ∧
      accept_calibration cfgSmall stSmall ⟨9, 9, 9⟩ ⟨8, 8, 8⟩ ⟨7, 7, 7⟩
        true false 5 = stSmall :=
  ⟨by decide,
   calibration_overwrite_denied cfgSmall stSmall ⟨9, 9, 9⟩ ⟨8, 8, 8⟩
     ⟨7, 7, 7⟩ 5 (by decide)⟩

/-! ### Characterization of the chip classifier -/

lemma cumsum_nil (k : ℕ) : cumsum [] k = 0 := by
  simp [cumsum]

lemma cumsum_zero (dims : List ℕ) : cumsum dims 0 = 0 := by
  simp [cumsum]

lemma cumsum_cons_succ (d : ℕ) (ds : List ℕ) (k : ℕ) :
    cumsum (d :: ds) (k + 1) = d + cumsum ds k := by
  simp [cumsum, List.take_succ_cons]

lemma cumsum_mono (dims : List ℕ) : ∀ {k l : ℕ}, k ≤ l →
    cumsum dims k ≤ cumsum dims l := by
  induction dims with
  | nil => intro k l _; simp [cumsum]
  | cons d ds ih =>
    intro k l h
    match k, l with
    | 0, l => simp [cumsum_zero]
    | k + 1, l + 1 =>
      rw [cumsum_cons_succ, cumsum_cons_succ]
      exact Nat.add_le_add_left (ih (by omega)) d

lemma cumsum_length (dims : List ℕ) : cumsum dims dims.length = dims.sum := by
  simp [cumsum]

/-- If the scan starts at an accumulated sum at most `i` and `i` lies below
the total, it returns the chip whose cumulative bracket contains `i`. -/
lemma chip_from_i_go_some (i : ℤ) (ds : List ℕ) : ∀ (idx acc : ℕ),
    (acc : ℤ) ≤ i → i < (acc : ℤ) + (ds.sum : ℤ) →
    ∃ t : ℕ, t < ds.length ∧ chip_from_i_go i ds idx acc = some (idx + t) ∧
      (acc : ℤ) + (cumsum ds t : ℤ) ≤ i ∧
      i < (acc : ℤ) + (cumsum ds (t + 1) : ℤ) := by
  induction ds with
  | nil =>
    intro idx acc hlo hhi
    simp only [List.sum_nil, Nat.cast_zero, add_zero] at hhi
    omega
  | cons d ds ih =>
    intro idx acc hlo hhi
    by_cases h : i < (acc : ℤ) + (d : ℤ)
    · refine ⟨0, by simp, ?_, ?_, ?_⟩
      · simp [chip_from_i_go, h]
      · simpa [cumsum_zero] using hlo
      · have : cumsum (d :: ds) 1 = d := by
          simpa [cumsum_zero] using cumsum_cons_succ d ds 0
        rw [this]; exact h
    · push_neg at h
      have hlo' : ((acc + d : ℕ) : ℤ) ≤ i := by push_cast; exact h
      have hhi' : i < ((acc + d : ℕ) : ℤ) + (ds.sum : ℤ) := by
        push_cast
        have : (d :: ds).sum = d + ds.sum := by simp
        rw [this] at hhi
        push_cast at hhi
        linarith
      obtain ⟨t, ht, hres, hb1, hb2⟩ := ih (idx + 1) (acc + d) hlo' hhi'
      refine ⟨t + 1, by simpa using ht, ?_, ?_, ?_⟩
      · have : chip_from_i_go i (d :: ds) idx acc
            = chip_from_i_go i ds (idx + 1) (acc + d) := by
          simp [chip_from_i_go, not_lt.mpr h]
        rw [this, hres]
        congr 1
        omega
      · rw [cumsum_cons_succ]
        push_cast at hb1 ⊢
        linarith
      · rw [cumsum_cons_succ]
        push_cast at hb2 ⊢
        linarith

/-- If `i` is at least the accumulated sum plus everything remaining, the
scan falls off the end and returns `none`. -/
lemma chip_from_i_go_none (i : ℤ) (ds : List ℕ) : ∀ (idx acc : ℕ),
    (acc : ℤ) + (ds.sum : ℤ) ≤ i → chip_from_i_go i ds idx acc = none := by
  induction ds with
  | nil => intro idx acc _; simp [chip_from_i_go]
  | cons d ds ih =>
    intro idx acc h
    have hs : ((d :: ds).sum : ℤ) = (d : ℤ) + (ds.sum : ℤ) := by
      rw [List.sum_cons, Nat.cast_add]
    rw [hs] at h
    have hno : ¬ i < (acc : ℤ) + (d : ℤ) := by omega
    have hrec := ih (idx + 1) (acc + d) (by rw [Nat.cast_add]; omega)
    simp [chip_from_i_go, hno, hrec]

/-- For `0 ≤ i < sum dims`, `_chip_from_i` returns the chip whose
cumulative-sum bracket contains `i`. -/
lemma chip_from_i_spec (dims : List ℕ) (i : ℤ) (h0 : 0 ≤ i)
    (hN : i < (dims.sum : ℤ)) :
    ∃ c : ℕ, chip_from_i dims i = some c ∧ c < dims.length ∧
      (cumsum dims c : ℤ) ≤ i ∧ i < (cumsum dims (c + 1) : ℤ) := by
  obtain ⟨t, ht, hres, hb1, hb2⟩ :=
    chip_from_i_go_some i dims 0 0 (by simpa using h0) (by simpa using hN)
  exact ⟨t, by simpa using hres, ht, by simpa using hb1, by simpa using hb2⟩

/-- For `i ≥ sum dims`, `_chip_from_i` returns `None`. -/
lemma chip_from_i_eq_none (dims : List ℕ) (i : ℤ)
    (h : (dims.sum : ℤ) ≤ i) : chip_from_i dims i = none :=
  chip_from_i_go_none i dims 0 0 (by simpa using h)

/-- For negative `i` and a nonempty chip list, `_chip_from_i` returns
chip 0 (since `i < sum(chip_dims[:1])` holds trivially). -/
lemma chip_from_i_neg (d : ℕ) (ds : List ℕ) (i : ℤ) (hi : i < 0) :
    chip_from_i (d :: ds) i = some 0 := by
  have h : i < ((0 : ℕ) : ℤ) + (d : ℤ) := by omega
  unfold chip_from_i chip_from_i_go
  rw [if_pos h]

/-- The cumulative bracket determines the chip uniquely. -/
lemma chip_bracket_unique (dims : List ℕ) (i : ℤ) (c c' : ℕ)
    (h1 : (cumsum dims c : ℤ) ≤ i) (h2 : i < (cumsum dims (c + 1) : ℤ))
    (h1' : (cumsum dims c' : ℤ) ≤ i) (h2' : i < (cumsum dims (c' + 1) : ℤ)) :
    c = c' := by
  by_contra hne
  rcases Nat.lt_or_ge c c' with h | h
  · have := cumsum_mono dims (show c + 1 ≤ c' by omega)
    have : (cumsum dims (c + 1) : ℤ) ≤ (cumsum dims c' : ℤ) := by exact_mod_cast this
    omega
  · have hcc : c' < c := by omega
    have := cumsum_mono dims (show c' + 1 ≤ c by omega)
    have : (cumsum dims (c' + 1) : ℤ) ≤ (cumsum dims c : ℤ) := by exact_mod_cast this
    omega

/-- C9 (counterexample): the claim that `_chip_from_i` fails for every `i`
outside `[0, N)` is false — on the default chip dimensions it returns chip
0 for the out-of-range coordinate `i = -1` instead of failing. -/
theorem chip_classifier_claim_false_at_neg_one :
    chip_from_i cfgDefault.chip_dims (-1) = some 0 := by decide

/-- C9 (amended): for `0 ≤ i < N`, `_chip_from_i` returns the zero-based
index of the first chip whose cumulative dimension sum strictly exceeds
`i`; for `i ≥ N` it returns `None` (no chip index, making its caller
fail); but for negative `i` it returns chip 0 rather than failing. -/
theorem chip_classifier (dims : List ℕ) (N : ℕ) (hsum : dims.sum = N) :
    (∀ i : ℤ, 0 ≤ i → i < (N : ℤ) →
      ∃ c : ℕ, chip_from_i dims i = some c ∧
        i < (cumsum dims (c + 1) : ℤ) ∧
        ∀ b : ℕ, b < c → (cumsum dims (b + 1) : ℤ) ≤ i) ∧
    (∀ i : ℤ, (N : ℤ) ≤ i → chip_from_i dims i = none) ∧
    (∀ (d : ℕ) (ds : List ℕ), dims = d :: ds →
      ∀ i : ℤ, i < 0 → chip_from_i dims i = some 0) := by
  subst hsum
  refine ⟨?_, ?_, ?_⟩
  · intro i h0 hN
    obtain ⟨c, hc, _, hb1, hb2⟩ := chip_from_i_spec dims i h0 hN
    refine ⟨c, hc, hb2, ?_⟩
    intro b hb
    have h1 : cumsum dims (b + 1) ≤ cumsum dims c := cumsum_mono dims (by omega)
    have h2 : (cumsum dims (b + 1) : ℤ) ≤ (cumsum dims c : ℤ) := by
      exact_mod_cast h1
    omega
  · intro i hi
    exact chip_from_i_eq_none dims i hi
  · intro d ds hd i hi
    subst hd
    exact chip_from_i_neg d ds i hi

/-- Closed instance of the amended chip classifier at the default chip
dimensions and `i = 30` (which lies in chip 1, cumulative sums 8, 32). -/
theorem chip_classifier_witness :
    ([8, 24, 24, 24] : List ℕ).sum = 80 ∧
      ∃ c : ℕ, chip_from_i [8, 24, 24, 24] 30 = some c ∧
        (30 : ℤ) < (cumsum [8, 24, 24, 24] (c + 1) : ℤ) ∧
        ∀ b : ℕ, b < c → (cumsum [8, 24, 24, 24] (b + 1) : ℤ) ≤ 30 :=
  ⟨by decide,
   (chip_classifier [8, 24, 24, 24] 80 (by decide)).1 30 (by decide)
     (by decide)⟩

/-- C2: Forward mapping formula — for a palette calibrated from scratch
with points `s` (start), `n` (the `[N-1, 0]` corner) and `m` (the
`[0, M-1]` corner), and every in-range grid index `(i, j)`,
`locate_2d(i, j)` returns exactly
`s + i*N_hat + j*M_hat + chip(i)*chip_factor*(n - s)` with
`N_hat = (n - s)*(1 - num_chips*chip_factor)/(N-1)` and
`M_hat = (m - s)/(M-1)` (no chip correction on the second axis). -/
theorem locate_2d_formula (cfg : PaletteConfig) (s n m : Vec3)
    (co uc : Bool) (sqrt_len : ℚ) (i j : ℤ)
    (hsum : cfg.chip_dims.sum = cfg.N) (h0 : 0 ≤ i) (hi : i < (cfg.N : ℤ)) :
    ∃ c : ℕ, chip_from_i cfg.chip_dims i = some c ∧
      locate_2d cfg (accept_calibration cfg initState s n m co uc sqrt_len)
          i j
        = .ok (((s.add ((((n.sub s).smul
                  (1 - (cfg.num_chips : ℚ) * cfg.chip_factor)).divQ
                  ((cfg.N : ℚ) - 1)).smul (i : ℚ))).add
                (((m.sub s).divQ ((cfg.M : ℚ) - 1)).smul (j : ℚ))).add
               ((n.sub s).smul ((c : ℚ) * cfg.chip_factor))) := by
  have hN : i < (cfg.chip_dims.sum : ℤ) := by rw [hsum]; exact hi
  obtain ⟨c, hc, -, -, -⟩ := chip_from_i_spec cfg.chip_dims i h0 hN
  refine ⟨c, hc, ?_⟩
  simp [locate_2d, accept_calibration, initState, hc]

/-- Closed instance of the forward mapping formula on the two-chip
configuration at grid index `(2, 1)` (which lies in chip 1). -/
theorem locate_2d_formula_witness :
    cfgTwoChip.chip_dims.sum = cfgTwoChip.N ∧
      ∃ c : ℕ, chip_from_i cfgTwoChip.chip_dims 2 = some c ∧
        locate_2d cfgTwoChip
            (accept_calibration cfgTwoChip initState ⟨0, 0, 0⟩ ⟨4, 0, 0⟩
              ⟨0, 1, 0⟩ false false 4) 2 1
          = .ok ((((⟨0, 0, 0⟩ : Vec3).add
                    ((((Vec3.sub ⟨4, 0, 0⟩ ⟨0, 0, 0⟩).smul
                        (1 - (cfgTwoChip.num_chips : ℚ)
                          * cfgTwoChip.chip_factor)).divQ
                        ((cfgTwoChip.N : ℚ) - 1)).smul (2 : ℚ))).add
                  (((Vec3.sub ⟨0, 1, 0⟩ ⟨0, 0, 0⟩).divQ
                      ((cfgTwoChip.M : ℚ) - 1)).smul (1 : ℚ))).add
                 ((Vec3.sub ⟨4, 0, 0⟩ ⟨0, 0, 0⟩).smul
                    ((c : ℚ) * cfgTwoChip.chip_factor))) :=
  ⟨by decide,
   locate_2d_formula cfgTwoChip ⟨0, 0, 0⟩ ⟨4, 0, 0⟩ ⟨0, 1, 0⟩ false false 4
     2 1 (by decide) (by decide) (by decide)⟩

/-- C8: Affine consistency — calibrating with `start_pt = (0,0,0)`,
`axis_a_pt = (N-1, 0, 0)`, `axis_b_pt = (0, M-1, 0)` and
`chip_spacing = sample_spacing` (so the chip correction factor vanishes),
`locate_2d(i, j)` returns exactly `(i, j, 0)` for every in-range grid
index. -/
theorem affine_consistency (cfg : PaletteConfig) (co uc : Bool)
    (sqrt_len : ℚ) (i j : ℤ)
    (hsum : cfg.chip_dims.sum = cfg.N) (hN : 2 ≤ cfg.N) (hM : 2 ≤ cfg.M)
    (hzero : cfg.chip_spacing = cfg.sample_spacing)
    (h0 : 0 ≤ i) (hi : i < (cfg.N : ℤ)) (hj0 : 0 ≤ j)
    (hj : j < (cfg.M : ℤ)) :
    locate_2d cfg
        (accept_calibration cfg initState ⟨0, 0, 0⟩ ⟨(cfg.N : ℚ) - 1, 0, 0⟩
          ⟨0, (cfg.M : ℚ) - 1, 0⟩ co uc sqrt_len) i j
      = .ok ⟨(i : ℚ), (j : ℚ), 0⟩ := by
  have hcf : cfg.chip_factor = 0 := by
    unfold PaletteConfig.chip_factor
    rw [hzero, sub_self, zero_div]
  have hN1 : ((cfg.N : ℚ) - 1) ≠ 0 := by
    have : (2 : ℚ) ≤ (cfg.N : ℚ) := by exact_mod_cast hN
    linarith
  have hM1 : ((cfg.M : ℚ) - 1) ≠ 0 := by
    have : (2 : ℚ) ≤ (cfg.M : ℚ) := by exact_mod_cast hM
    linarith
  have hNi : i < (cfg.chip_dims.sum : ℤ) := by rw [hsum]; exact hi
  obtain ⟨c, hc, -, -, -⟩ := chip_from_i_spec cfg.chip_dims i h0 hNi
  simp only [locate_2d, accept_calibration, initState, Bool.false_and,
    Bool.and_eq_true, if_neg, hc]
  simp only [Bool.false_eq_true, if_false, hc, if_true]
  rw [hcf]
  unfold Vec3.add Vec3.sub Vec3.smul Vec3.divQ
  simp only [Except.ok.injEq, Vec3.mk.injEq]
  refine ⟨?_, ?_, by ring⟩
  · field_simp
  · field_simp

/-- Closed instance of affine consistency: the default 80×23 palette with
`chip_spacing` set equal to `sample_spacing`, at grid index `(9, 3)`. -/
theorem affine_consistency_witness :
    ({ cfgDefault with chip_spacing := 1 } : PaletteConfig).chip_dims.sum
        = ({ cfgDefault with chip_spacing := 1 } : PaletteConfig).N ∧
      locate_2d { cfgDefault with chip_spacing := 1 }
          (accept_calibration { cfgDefault with chip_spacing := 1 } initState
            ⟨0, 0, 0⟩ ⟨(({ cfgDefault with chip_spacing := 1 }
                : PaletteConfig).N : ℚ) - 1, 0, 0⟩
            ⟨0, (({ cfgDefault with chip_spacing := 1 }
                : PaletteConfig).M : ℚ) - 1, 0⟩ false false 79) 9 3
        = .ok ⟨(9 : ℚ), (3 : ℚ), 0⟩ :=
  ⟨by decide,
   affine_consistency { cfgDefault with chip_spacing := 1 } false false 79
     9 3 (by decide) (by decide) (by decide) (by decide) (by decide)
     (by decide) (by decide) (by decide)⟩

/-! ### Helper lemmas about freshly calibrated palettes -/

/-- Calibrating a fresh palette takes the non-cancel branch whatever the
confirmation flags are. -/
lemma accept_calibration_fresh (cfg : PaletteConfig) (s n m : Vec3)
    (co uc : Bool) (sqrt_len : ℚ) :
    accept_calibration cfg initState s n m co uc sqrt_len
      = { calibrated := true, start_pt := some s, n_pt := some n,
          m_pt := some m,
          N_hat := some (((n.sub s).smul
                    (1 - (cfg.num_chips : ℚ) * cfg.chip_factor)).divQ
                    ((cfg.N : ℚ) - 1)),
          M_hat := some ((m.sub s).divQ ((cfg.M : ℚ) - 1)),
          length_calibrated := some sqrt_len } := by
  simp [accept_calibration, initState]

/-- On a freshly calibrated palette, `locate_2d` succeeds at every
in-range long-axis coordinate, with the chip-corrected affine value. -/
lemma locate_2d_ok (cfg : PaletteConfig) (s n m : Vec3) (co uc : Bool)
    (sqrt_len : ℚ) (i j : ℤ) (hsum : cfg.chip_dims.sum = cfg.N)
    (h0 : 0 ≤ i) (hi : i < (cfg.N : ℤ)) :
    ∃ (c : ℕ),
      chip_from_i cfg.chip_dims i = some c ∧
      locate_2d cfg (accept_calibration cfg initState s n m co uc sqrt_len)
          i j
        = .ok (((s.add ((((n.sub s).smul
                  (1 - (cfg.num_chips : ℚ) * cfg.chip_factor)).divQ
                  ((cfg.N : ℚ) - 1)).smul (i : ℚ))).add
                (((m.sub s).divQ ((cfg.M : ℚ) - 1)).smul (j : ℚ))).add
               ((n.sub s).smul ((c : ℚ) * cfg.chip_factor))) := by
  have hNi : i < (cfg.chip_dims.sum : ℤ) := by rw [hsum]; exact hi
  obtain ⟨c, hc, -, -, -⟩ := chip_from_i_spec cfg.chip_dims i h0 hNi
  refine ⟨c, hc, ?_⟩
  rw [accept_calibration_fresh]
  simp [locate_2d, hc]

/-- The grid index computed by `locate_1d` from an in-range sample number
is in range on both axes. -/
lemma locate_1d_calc_bounds (N M : ℕ) (k : ℤ) (h0 : 0 ≤ k)
    (hk : k < (N : ℤ) * (M : ℤ)) :
    0 ≤ (locate_1d_calc M k).1 ∧ (locate_1d_calc M k).1 < (N : ℤ) ∧
      0 ≤ (locate_1d_calc M k).2 ∧ (locate_1d_calc M k).2 < (M : ℤ) := by
  have hM : 0 < (M : ℤ) := by
    rcases Nat.eq_zero_or_pos M with h | h
    · subst h; simp at hk; omega
    · exact_mod_cast h
  have hdm := Int.ediv_add_emod k (M : ℤ)
  have hr0 : 0 ≤ k % (M : ℤ) := Int.emod_nonneg k (by omega)
  have hrM : k % (M : ℤ) < (M : ℤ) := Int.emod_lt_of_pos k hM
  have hq0 : 0 ≤ k / (M : ℤ) := Int.ediv_nonneg h0 (le_of_lt hM)
  have hqN : k / (M : ℤ) < (N : ℤ) := by
    by_contra hcon
    push_neg at hcon
    have : (N : ℤ) * (M : ℤ) ≤ (k / (M : ℤ)) * (M : ℤ) :=
      mul_le_mul_of_nonneg_right hcon (le_of_lt hM)
    nlinarith
  unfold locate_1d_calc
  simp only
  split_ifs with h
  · refine ⟨hq0, hqN, by omega, by omega⟩
  · exact ⟨hq0, hqN, hr0, hrM⟩

/-- C6: Invalid-sample rejection on forward moves — on a freshly
calibrated palette, `move_1d(k)` raises `InvalidSampleError` exactly when
`k` is outside `[0, N*M)` and `move_2d(i, j)` raises it exactly when
`(i, j)` is outside `[0, N) × [0, M)`; in-range arguments are never
rejected and are moved to the exact `locate_2d` target (no clamping). -/
theorem move_invalid_sample (cfg : PaletteConfig) (s n m : Vec3)
    (co uc : Bool) (sqrt_len : ℚ) (hsum : cfg.chip_dims.sum = cfg.N) :
    (∀ (ms : MotionState) (k : ℤ),
      (move_1d cfg (accept_calibration cfg initState s n m co uc sqrt_len)
          ms k).err = some .invalidSample ↔
        ¬(0 ≤ k ∧ k < (cfg.samples : ℤ))) ∧
    (∀ (ms : MotionState) (i j : ℤ),
      (move_2d cfg (accept_calibration cfg initState s n m co uc sqrt_len)
          ms i j).err = some .invalidSample ↔
        ¬(0 ≤ i ∧ i < (cfg.N : ℤ) ∧ 0 ≤ j ∧ j < (cfg.M : ℤ))) ∧
    (∀ (ms : MotionState) (i j : ℤ), 0 ≤ i → i < (cfg.N : ℤ) → 0 ≤ j →
      j < (cfg.M : ℤ) →
      ∃ v : Vec3,
        locate_2d cfg
            (accept_calibration cfg initState s n m co uc sqrt_len) i j
          = .ok v ∧
        move_2d cfg (accept_calibration cfg initState s n m co uc sqrt_len)
            ms i j = ⟨move_3d ms v, none⟩) ∧
    (∀ (ms : MotionState) (k : ℤ), 0 ≤ k → k < (cfg.samples : ℤ) →
      ∃ v : Vec3,
        locate_2d cfg
            (accept_calibration cfg initState s n m co uc sqrt_len)
            (locate_1d_calc cfg.M k).1 (locate_1d_calc cfg.M k).2
          = .ok v ∧
        move_1d cfg (accept_calibration cfg initState s n m co uc sqrt_len)
            ms k = ⟨move_3d ms v, none⟩) := by
  have hcal : (accept_calibration cfg initState s n m co uc
      sqrt_len).calibrated = true := by
    rw [accept_calibration_fresh]
  have hmove2 : ∀ (ms : MotionState) (i j : ℤ), 0 ≤ i → i < (cfg.N : ℤ) →
      0 ≤ j → j < (cfg.M : ℤ) →
      ∃ v : Vec3,
        locate_2d cfg
            (accept_calibration cfg initState s n m co uc sqrt_len) i j
          = .ok v ∧
        move_2d cfg (accept_calibration cfg initState s n m co uc sqrt_len)
            ms i j = ⟨move_3d ms v, none⟩ := by
    intro ms i j h0 hi hj0 hj
    obtain ⟨c, -, hok⟩ :=
      locate_2d_ok cfg s n m co uc sqrt_len i j hsum h0 hi
    refine ⟨_, hok, ?_⟩
    unfold move_2d
    rw [hcal]
    simp only [Bool.not_true, Bool.false_eq_true, if_false]
    rw [if_neg (by push_neg; exact ⟨h0, hi, hj0, hj⟩), hok]
  refine ⟨?_, ?_, hmove2, ?_⟩
  · intro ms k
    constructor
    · intro herr
      intro hin
      have hkN : k < (cfg.N : ℤ) * (cfg.M : ℤ) := by
        have := hin.2
        unfold PaletteConfig.samples at this
        push_cast at this
        exact this
      obtain ⟨hi0, hiN, hj0, hjM⟩ :=
        locate_1d_calc_bounds cfg.N cfg.M k hin.1 hkN
      obtain ⟨v, -, hmv⟩ := hmove2 ms (locate_1d_calc cfg.M k).1
        (locate_1d_calc cfg.M k).2 hi0 hiN hj0 hjM
      unfold move_1d at herr
      rw [hcal] at herr
      simp only [Bool.not_true, Bool.false_eq_true, if_false] at herr
      rw [if_neg (by push_neg; exact hin)] at herr
      unfold locate_1d at herr
      rw [hcal] at herr
      simp only [if_true] at herr
      rw [hmv] at herr
      simp at herr
    · intro hout
      unfold move_1d
      rw [hcal]
      simp only [Bool.not_true, Bool.false_eq_true, if_false]
      rw [if_pos hout]
  · intro ms i j
    constructor
    · intro herr hin
      obtain ⟨v, -, hmv⟩ := hmove2 ms i j hin.1 hin.2.1 hin.2.2.1 hin.2.2.2
      rw [hmv] at herr
      simp at herr
    · intro hout
      unfold move_2d
      rw [hcal]
      simp only [Bool.not_true, Bool.false_eq_true, if_false]
      rw [if_pos hout]
  · intro ms k h0 hk
    have hkN : k < (cfg.N : ℤ) * (cfg.M : ℤ) := by
      unfold PaletteConfig.samples at hk
      push_cast at hk
      exact hk
    obtain ⟨hi0, hiN, hj0, hjM⟩ := locate_1d_calc_bounds cfg.N cfg.M k h0 hkN
    obtain ⟨v, hok, hmv⟩ := hmove2 ms (locate_1d_calc cfg.M k).1
      (locate_1d_calc cfg.M k).2 hi0 hiN hj0 hjM
    refine ⟨v, hok, ?_⟩
    unfold move_1d
    rw [hcal]
    simp only [Bool.not_true, Bool.false_eq_true, if_false]
    rw [if_neg (by push_neg; exact ⟨h0, hk⟩)]
    unfold locate_1d
    rw [hcal]
    simp only [if_true]
    exact hmv

/-- Closed instance of the invalid-sample rejection: on the calibrated
2×2 palette, `move_1d(7)` (out of range, `samples = 4`) raises
`InvalidSampleError`. -/
theorem move_invalid_sample_witness :
    cfgSmall.chip_dims.sum = cfgSmall.N ∧
      ((move_1d cfgSmall
          (accept_calibration cfgSmall initState ⟨0, 0, 0⟩ ⟨1, 0, 0⟩
            ⟨0, 1, 0⟩ false false 1)
          ⟨none, none, none⟩ 7).err = some .invalidSample ↔
        ¬((0 : ℤ) ≤ 7 ∧ (7 : ℤ) < (cfgSmall.samples : ℤ))) :=
  ⟨by decide,
   (move_invalid_sample cfgSmall ⟨0, 0, 0⟩ ⟨1, 0, 0⟩ ⟨0, 1, 0⟩ false false 1
     (by decide)).1 ⟨none, none, none⟩ 7⟩

/-- C10: Failed moves issue no motion — on a calibrated palette, the
bounds check of `move_2d`/`move_1d` happens before `locate_2d`/`move_3d`
is invoked, so a call rejected with `InvalidSampleError` returns with the
commanded motor targets exactly as they were. -/
theorem move_invalid_no_motion (cfg : PaletteConfig) (s n m : Vec3)
    (co uc : Bool) (sqrt_len : ℚ) :
    (∀ (ms : MotionState) (i j : ℤ),
      ¬(0 ≤ i ∧ i < (cfg.N : ℤ) ∧ 0 ≤ j ∧ j < (cfg.M : ℤ)) →
      move_2d cfg (accept_calibration cfg initState s n m co uc sqrt_len)
          ms i j = ⟨ms, some .invalidSample⟩) ∧
    (∀ (ms : MotionState) (k : ℤ),
      ¬(0 ≤ k ∧ k < (cfg.samples : ℤ)) →
      move_1d cfg (accept_calibration cfg initState s n m co uc sqrt_len)
          ms k = ⟨ms, some .invalidSample⟩) := by
  have hcal : (accept_calibration cfg initState s n m co uc
      sqrt_len).calibrated = true := by
    rw [accept_calibration_fresh]
  constructor
  · intro ms i j hout
    unfold move_2d
    rw [hcal]
    simp only [Bool.not_true, Bool.false_eq_true, if_false]
    rw [if_pos hout]
  · intro ms k hout
    unfold move_1d
    rw [hcal]
    simp only [Bool.not_true, Bool.false_eq_true, if_false]
    rw [if_pos hout]

/-- Closed instance: a rejected `move_2d(5, 0)` on the calibrated 2×2
palette leaves previously commanded targets `(5, 6, 7)` untouched. -/
theorem move_invalid_no_motion_witness :
    ¬((0 : ℤ) ≤ 5 ∧ (5 : ℤ) < (cfgSmall.N : ℤ) ∧ (0 : ℤ) ≤ 0 ∧
        (0 : ℤ) < (cfgSmall.M : ℤ)) ∧
      move_2d cfgSmall
          (accept_calibration cfgSmall initState ⟨0, 0, 0⟩ ⟨1, 0, 0⟩
            ⟨0, 1, 0⟩ false false 1)
          ⟨some 5, some 6, some 7⟩ 5 0
        = ⟨⟨some 5, some 6, some 7⟩, some .invalidSample⟩ :=
  ⟨by decide,
   (move_invalid_no_motion cfgSmall ⟨0, 0, 0⟩ ⟨1, 0, 0⟩ ⟨0, 1, 0⟩ false
     false 1).1 ⟨some 5, some 6, some 7⟩ 5 0 (by decide)⟩

/-- The floor of Batteries (used by the embedding, mirroring `np.round`'s
integral part) agrees with the floor of Mathlib. -/
lemma ratFloor_eq_intFloor (q : ℚ) : q.floor = ⌊q⌋ := by
  rw [Rat.floor_def', Rat.floor_def]

/-- Rounding an integer value returns it unchanged. -/
lemma roundHalfEven_intCast (n : ℤ) : roundHalfEven ((n : ℚ)) = n := by
  unfold roundHalfEven
  rw [ratFloor_eq_intFloor, Int.floor_intCast]
  norm_num

/-- Concrete form of the calibrated 2×2 palette state. -/
lemma stSmall_eq : stSmall =
    { calibrated := true, start_pt := some ⟨0, 0, 0⟩, n_pt := some ⟨1, 0, 0⟩,
      m_pt := some ⟨0, 1, 0⟩, N_hat := some ⟨1, 0, 0⟩,
      M_hat := some ⟨0, 1, 0⟩, length_calibrated := some 1 } := by
  rw [stSmall, accept_calibration_fresh]
  norm_num [cfgSmall, PaletteConfig.num_chips, PaletteConfig.chip_factor,
    PaletteConfig.plength, Vec3.sub, Vec3.smul, Vec3.divQ]

/-- On the 2×2 palette, the physical position `(-5, -5, 0)` is inferred to
be on chip 0. -/
lemma chipSmall_eq : chip_from_xyz cfgSmall 1 ⟨0, 0, 0⟩ ⟨1, 0, 0⟩
    ⟨-5, -5, 0⟩ = 0 := by
  rw [chip_from_xyz]
  have hperc : cfgSmall.chip_dims_percents.reverse = [(2 : ℚ)/2] := by
    simp [cfgSmall, PaletteConfig.chip_dims_percents, cumsum]
  rw [hperc]
  have hpc : ((Vec3.mk (-5) (-5) 0).sub ⟨0, 0, 0⟩).dot ⟨1, 0, 0⟩ / 1
      = (-5 : ℚ) := by
    norm_num [Vec3.sub, Vec3.dot]
  rw [hpc]
  rw [chip_from_xyz_scan]
  rw [if_neg (by norm_num)]
  rfl

/-- C3 (counterexample): the claim that the index readback always returns
an index inside `[0, N-1] × [0, M-1]` is false — on the calibrated 2×2
palette the physical position `(-5, -5, 0)` (before the start point) is
read back as the out-of-range index `(-5, -5)`: the code clamps only from
above with `np.minimum` and never from below. -/
theorem index_clamp_claim_false_below :
    index_rb cfgSmall stSmall ⟨-5, -5, 0⟩ = .ok (-5, -5) ∧
      (-5 : ℤ) < 0 := by
  refine ⟨?_, by decide⟩
  rw [index_rb, stSmall_eq]
  simp only [Bool.not_true, Bool.false_eq_true, if_false]
  rw [chipSmall_eq]
  have hval1 : ((Vec3.mk (-5) (-5) 0).sub ⟨0, 0, 0⟩).dot ⟨1, 0, 0⟩
      - ((0 : ℕ) : ℚ) * cfgSmall.chip_factor * 1 = ((-5 : ℤ) : ℚ) := by
    norm_num [Vec3.sub, Vec3.dot]
  have hval2 : ((Vec3.mk (-5) (-5) 0).sub ⟨0, 0, 0⟩).dot ⟨0, 1, 0⟩
      = ((-5 : ℤ) : ℚ) := by
    norm_num [Vec3.sub, Vec3.dot]
  rw [hval1, hval2, roundHalfEven_intCast]
  norm_num [cfgSmall]

/-- C3 (amended): on a calibrated palette the index readback never fails
for any physical position, and never returns an index component above
`N-1` (first axis) or `M-1` (second axis); it has no lower clamp, so
components below 0 can be returned for positions before the start point. -/
theorem index_upper_clamp (cfg : PaletteConfig) (s n m : Vec3)
    (co uc : Bool) (sqrt_len : ℚ) (coords : Vec3) :
    ∃ ij : ℤ × ℤ,
      index_rb cfg (accept_calibration cfg initState s n m co uc sqrt_len)
          coords = .ok ij ∧
        ij.1 ≤ (cfg.N : ℤ) - 1 ∧ ij.2 ≤ (cfg.M : ℤ) - 1 := by
  rw [accept_calibration_fresh]
  unfold index_rb
  simp only [Bool.not_true, Bool.false_eq_true, if_false]
  exact ⟨_, rfl, min_le_right _ _, min_le_right _ _⟩

/-- C5 (counterexample): the claim that every locate operation on an
uncalibrated palette fails with `NotCalibratedError` is false for
`locate_2d`, which carries no `@calibrated` decorator: it fails with a
`TypeError` from arithmetic on the unset calibration attributes instead. -/
theorem uncalibrated_locate_2d_not_calibrated_error_false :
    locate_2d cfgSmall initState 0 0 = .error .typeError ∧
      locate_2d cfgSmall initState 0 0 ≠ .error .notCalibrated := by
  constructor
  · decide
  · decide

/-- C5 (amended): on a never-calibrated palette, `locate_1d` and the
`index`, `position`, `remaining` and `chip` readbacks, as well as
`move_1d` and `move_2d`, all fail with `NotCalibratedError`; `locate_2d`
also fails, but — lacking the `@calibrated` decorator — with a `TypeError`
from arithmetic on the unset calibration attributes; `calibrate`
(`_accept_calibration`) is permitted and leaves the palette calibrated. -/
theorem uncalibrated_rejection (cfg : PaletteConfig) (i j k : ℤ)
    (coords : Vec3) (ms : MotionState) (s n m : Vec3) (co uc : Bool)
    (sqrt_len : ℚ) :
    locate_1d cfg initState k = .error .notCalibrated ∧
    index_rb cfg initState coords = .error .notCalibrated ∧
    position_rb cfg initState coords = .error .notCalibrated ∧
    remaining_rb cfg initState coords = .error .notCalibrated ∧
    chip_rb cfg initState coords = .error .notCalibrated ∧
    (move_1d cfg initState ms k).err = some .notCalibrated ∧
    (move_2d cfg initState ms i j).err = some .notCalibrated ∧
    locate_2d cfg initState i j = .error .typeError ∧
    (accept_calibration cfg initState s n m co uc sqrt_len).calibrated
      = true := by
  refine ⟨?_, ?_, ?_, ?_, ?_, ?_, ?_, ?_, ?_⟩
  · simp [locate_1d, initState]
  · simp [index_rb, initState]
  · simp [position_rb, index_rb, initState]
  · simp [remaining_rb, initState]
  · simp [chip_rb, initState]
  · simp [move_1d, initState]
  · simp [move_2d, initState]
  · simp [locate_2d, initState]
  · rw [accept_calibration_fresh]

/-! ### Chip boundaries and chip steps along the long axis -/

/-- A chip boundary lies at long-axis coordinate `b` when `b` is the
cumulative dimension sum of a nonempty proper prefix of the chips, i.e.
the first coordinate of a new chip. -/
def chip_boundary (dims : List ℕ) (b : ℤ) : Prop :=
  ∃ k : ℕ, 0 < k ∧ k < dims.length ∧ (cumsum dims k : ℤ) = b

lemma cumsum_succ_getElem (dims : List ℕ) (k : ℕ) (h : k < dims.length) :
    cumsum dims (k + 1) = cumsum dims k + dims[k] := by
  unfold cumsum
  exact List.sum_take_succ dims k h

lemma cumsum_of_length_le (dims : List ℕ) (k : ℕ) (h : dims.length ≤ k) :
    cumsum dims k = dims.sum := by
  unfold cumsum
  rw [List.take_of_length_le h]

lemma length_le_sum_of_pos (dims : List ℕ) (hpos : ∀ d ∈ dims, 0 < d) :
    dims.length ≤ dims.sum := by
  induction dims with
  | nil => simp
  | cons d ds ih =>
    simp only [List.length_cons, List.sum_cons]
    have hd : 0 < d := hpos d (by simp)
    have := ih (fun x hx => hpos x (by simp [hx]))
    omega

/-- Stepping the long-axis coordinate from `i` to `i + 1` either stays on
the same chip or advances to the next one, and it advances exactly when a
chip boundary lies at `i + 1`. -/
lemma chip_step (dims : List ℕ) (hpos : ∀ d ∈ dims, 0 < d) (i : ℤ) (c : ℕ)
    (h0 : 0 ≤ i) (hi1 : i + 1 < (dims.sum : ℤ))
    (hci : chip_from_i dims i = some c) :
    (chip_boundary dims (i + 1) ↔ i + 1 = (cumsum dims (c + 1) : ℤ)) ∧
    chip_from_i dims (i + 1)
      = some (if i + 1 = (cumsum dims (c + 1) : ℤ) then c + 1 else c) := by
  obtain ⟨c', hc', hlen', hb1, hb2⟩ :=
    chip_from_i_spec dims i h0 (by omega)
  rw [hci] at hc'
  have hcc : c = c' := by injection hc'
  subst hcc
  have hiff : chip_boundary dims (i + 1) ↔ i + 1 = (cumsum dims (c + 1) : ℤ) := by
    constructor
    · rintro ⟨k, hk0, hklen, hkeq⟩
      by_contra hne
      have hle : i + 1 ≤ (cumsum dims (c + 1) : ℤ) := by omega
      have hlt : i + 1 < (cumsum dims (c + 1) : ℤ) := by omega
      rcases Nat.lt_or_ge k (c + 1) with hk | hk
      · have h1 : cumsum dims k ≤ cumsum dims c := cumsum_mono dims (by omega)
        have h2 : (cumsum dims k : ℤ) ≤ (cumsum dims c : ℤ) := by
          exact_mod_cast h1
        omega
      · have h1 : cumsum dims (c + 1) ≤ cumsum dims k := cumsum_mono dims hk
        have h2 : (cumsum dims (c + 1) : ℤ) ≤ (cumsum dims k : ℤ) := by
          exact_mod_cast h1
        omega
    · intro heq
      refine ⟨c + 1, by omega, ?_, heq.symm⟩
      by_contra hge
      push_neg at hge
      have := cumsum_of_length_le dims (c + 1) hge
      omega
  refine ⟨hiff, ?_⟩
  obtain ⟨c2, hc2, hlen2, hb1', hb2'⟩ :=
    chip_from_i_spec dims (i + 1) (by omega) hi1
  by_cases heq : i + 1 = (cumsum dims (c + 1) : ℤ)
  · rw [if_pos heq]
    have hc1len : c + 1 < dims.length := by
      by_contra hge
      push_neg at hge
      have := cumsum_of_length_le dims (c + 1) hge
      omega
    have hnext : cumsum dims (c + 2) = cumsum dims (c + 1) + dims[c + 1] :=
      cumsum_succ_getElem dims (c + 1) hc1len
    have hdpos : 0 < dims[c + 1] :=
      hpos dims[c + 1] (List.getElem_mem hc1len)
    have : c2 = c + 1 := by
      apply chip_bracket_unique dims (i + 1) c2 (c + 1) hb1' hb2'
      · omega
      · rw [hnext]
        push_cast
        omega
    rw [hc2, this]
  · rw [if_neg heq]
    have : c2 = c := by
      apply chip_bracket_unique dims (i + 1) c2 c hb1' hb2'
      · omega
      · omega
    rw [hc2, this]

/-! ### Chip-corrected monotonicity along the long axis -/

/-- The palette length is positive for a well-formed configuration
(positive spacings, positive chip dimensions summing to `N ≥ 2`). -/
lemma plength_pos (cfg : PaletteConfig) (hsum : cfg.chip_dims.sum = cfg.N)
    (hpos : ∀ d ∈ cfg.chip_dims, 0 < d) (hss : 0 < cfg.sample_spacing)
    (hcs : 0 < cfg.chip_spacing) (hN2 : 2 ≤ cfg.N) : 0 < cfg.plength := by
  have hlen : cfg.chip_dims.length ≤ cfg.N := by
    rw [← hsum]
    exact length_le_sum_of_pos _ hpos
  have hnc : cfg.num_chips + 1 ≤ cfg.N := by
    unfold PaletteConfig.num_chips
    have hne : cfg.chip_dims ≠ [] := by
      intro h
      rw [h] at hsum
      simp at hsum
      omega
    have h1 : 1 ≤ cfg.chip_dims.length := List.length_pos.mpr hne
    omega
  have hcast : ((cfg.num_chips : ℚ)) + 1 ≤ (cfg.N : ℚ) := by exact_mod_cast hnc
  have hN2q : (2 : ℚ) ≤ (cfg.N : ℚ) := by exact_mod_cast hN2
  unfold PaletteConfig.plength
  rcases Nat.eq_zero_or_pos cfg.num_chips with h | h
  · rw [h]
    push_cast
    nlinarith
  · have h1 : (1 : ℚ) ≤ (cfg.num_chips : ℚ) := by exact_mod_cast h
    nlinarith [mul_nonneg
      (by linarith : (0:ℚ) ≤ (cfg.N : ℚ) - (cfg.num_chips : ℚ) - 1) hss.le,
      mul_pos (by linarith : (0:ℚ) < (cfg.num_chips : ℚ)) hcs]

/-- The scaling `1 - num_chips*chip_factor` applied to the long axis is
the fraction `(N-1)*sample_spacing / length` of the palette length covered
by within-chip steps. -/
lemma one_sub_chip_factor (cfg : PaletteConfig) (hL : cfg.plength ≠ 0) :
    1 - (cfg.num_chips : ℚ) * cfg.chip_factor
      = ((cfg.N : ℚ) - 1) * cfg.sample_spacing / cfg.plength := by
  have hLdef : cfg.plength
      = ((cfg.N : ℚ) - (cfg.num_chips : ℚ) - 1) * cfg.sample_spacing
        + (cfg.num_chips : ℚ) * cfg.chip_spacing := rfl
  rw [PaletteConfig.chip_factor]
  field_simp
  rw [hLdef]
  ring

/-- The first coordinate of `locate_2d` steps by the within-chip step
`N_hat.x` from `i` to `i+1`, plus exactly `chip_factor*(n.x - s.x)` when a
chip boundary lies at `i+1`. -/
lemma locate_2d_x_step (cfg : PaletteConfig) (s n m : Vec3) (co uc : Bool)
    (sqrt_len : ℚ) (hsum : cfg.chip_dims.sum = cfg.N)
    (hpos : ∀ d ∈ cfg.chip_dims, 0 < d) :
    ∀ (i j : ℤ) (v v' : Vec3), 0 ≤ i → i + 1 < (cfg.N : ℤ) →
      locate_2d cfg (accept_calibration cfg initState s n m co uc sqrt_len)
        i j = .ok v →
      locate_2d cfg (accept_calibration cfg initState s n m co uc sqrt_len)
        (i + 1) j = .ok v' →
      (chip_boundary cfg.chip_dims (i + 1) →
        v'.x - v.x
          = (1 - (cfg.num_chips : ℚ) * cfg.chip_factor) * (n.x - s.x)
              / ((cfg.N : ℚ) - 1)
            + cfg.chip_factor * (n.x - s.x)) ∧
      (¬ chip_boundary cfg.chip_dims (i + 1) →
        v'.x - v.x
          = (1 - (cfg.num_chips : ℚ) * cfg.chip_factor) * (n.x - s.x)
              / ((cfg.N : ℚ) - 1)) := by
  intro i j v v' h0 hi1 hok hok'
  have hiN : i < (cfg.N : ℤ) := by omega
  obtain ⟨c, hc, hval⟩ :=
    locate_2d_ok cfg s n m co uc sqrt_len i j hsum h0 hiN
  have hi1sum : i + 1 < (cfg.chip_dims.sum : ℤ) := by rw [hsum]; exact hi1
  obtain ⟨hbiff, hcsucc⟩ := chip_step cfg.chip_dims hpos i c h0 hi1sum hc
  obtain ⟨c2, hc2, hval'⟩ :=
    locate_2d_ok cfg s n m co uc sqrt_len (i + 1) j hsum (by omega) hi1
  rw [hcsucc] at hc2
  have hc2eq : (if i + 1 = (cumsum cfg.chip_dims (c + 1) : ℤ) then c + 1
      else c) = c2 := by injection hc2
  rw [hok] at hval
  have hv := Except.ok.inj hval
  rw [hok'] at hval'
  have hv' := Except.ok.inj hval'
  subst hv
  subst hv'
  constructor
  · intro hbd
    have heq : i + 1 = (cumsum cfg.chip_dims (c + 1) : ℤ) := hbiff.mp hbd
    rw [if_pos heq] at hc2eq
    subst hc2eq
    simp only [Vec3.add, Vec3.smul, Vec3.sub, Vec3.divQ]
    push_cast
    ring
  · intro hnbd
    have hne : ¬ i + 1 = (cumsum cfg.chip_dims (c + 1) : ℤ) := by
      intro heq
      exact hnbd (hbiff.mpr heq)
    rw [if_neg hne] at hc2eq
    subst hc2eq
    simp only [Vec3.add, Vec3.smul, Vec3.sub, Vec3.divQ]
    push_cast
    ring

/-- When the long-axis displacement has positive first coordinate and the
spacings are positive, each consecutive step of `locate_2d` strictly
increases the first coordinate. -/
lemma locate_2d_x_step_pos (cfg : PaletteConfig) (s n m : Vec3)
    (co uc : Bool) (sqrt_len : ℚ) (hsum : cfg.chip_dims.sum = cfg.N)
    (hpos : ∀ d ∈ cfg.chip_dims, 0 < d) (hss : 0 < cfg.sample_spacing)
    (hcs : 0 < cfg.chip_spacing) (hN2 : 2 ≤ cfg.N) (hx : s.x < n.x) :
    ∀ (i j : ℤ) (v v' : Vec3), 0 ≤ i → i + 1 < (cfg.N : ℤ) →
      locate_2d cfg (accept_calibration cfg initState s n m co uc sqrt_len)
        i j = .ok v →
      locate_2d cfg (accept_calibration cfg initState s n m co uc sqrt_len)
        (i + 1) j = .ok v' →
      v.x < v'.x := by
  intro i j v v' h0 hi1 hok hok'
  have hL := plength_pos cfg hsum hpos hss hcs hN2
  have hkey := one_sub_chip_factor cfg hL.ne'
  have hN1 : (0 : ℚ) < (cfg.N : ℚ) - 1 := by
    have : (2 : ℚ) ≤ (cfg.N : ℚ) := by exact_mod_cast hN2
    linarith
  have hA : (0 : ℚ) < n.x - s.x := by linarith
  have hwithin : (1 - (cfg.num_chips : ℚ) * cfg.chip_factor) * (n.x - s.x)
      / ((cfg.N : ℚ) - 1)
      = (n.x - s.x) * cfg.sample_spacing / cfg.plength := by
    rw [hkey]
    field_simp
    ring
  have hstep := locate_2d_x_step cfg s n m co uc sqrt_len hsum hpos i j v v'
    h0 hi1 hok hok'
  by_cases hbd : chip_boundary cfg.chip_dims (i + 1)
  · have hdiff := hstep.1 hbd
    have hbound : (1 - (cfg.num_chips : ℚ) * cfg.chip_factor) * (n.x - s.x)
        / ((cfg.N : ℚ) - 1) + cfg.chip_factor * (n.x - s.x)
        = (n.x - s.x) * cfg.chip_spacing / cfg.plength := by
      rw [hwithin, PaletteConfig.chip_factor]
      field_simp
      ring
    rw [hbound] at hdiff
    have : (0 : ℚ) < (n.x - s.x) * cfg.chip_spacing / cfg.plength :=
      div_pos (mul_pos hA hcs) hL
    linarith
  · have hdiff := hstep.2 hbd
    rw [hwithin] at hdiff
    have : (0 : ℚ) < (n.x - s.x) * cfg.sample_spacing / cfg.plength :=
      div_pos (mul_pos hA hss) hL
    linarith

/-- Chains consecutive steps: the first coordinate of `locate_2d`
increases strictly over any long-axis gap of `d + 1` columns. -/
lemma locate_2d_x_mono (cfg : PaletteConfig) (s n m : Vec3)
    (co uc : Bool) (sqrt_len : ℚ) (hsum : cfg.chip_dims.sum = cfg.N)
    (hpos : ∀ d ∈ cfg.chip_dims, 0 < d) (hss : 0 < cfg.sample_spacing)
    (hcs : 0 < cfg.chip_spacing) (hN2 : 2 ≤ cfg.N) (hx : s.x < n.x) :
    ∀ (d : ℕ) (i1 j : ℤ) (v1 v2 : Vec3), 0 ≤ i1 →
      i1 + (d : ℤ) + 1 < (cfg.N : ℤ) →
      locate_2d cfg (accept_calibration cfg initState s n m co uc sqrt_len)
        i1 j = .ok v1 →
      locate_2d cfg (accept_calibration cfg initState s n m co uc sqrt_len)
        (i1 + (d : ℤ) + 1) j = .ok v2 →
      v1.x < v2.x := by
  intro d
  induction d with
  | zero =>
    intro i1 j v1 v2 h0 hlt hok1 hok2
    have := locate_2d_x_step_pos cfg s n m co uc sqrt_len hsum hpos hss hcs
      hN2 hx i1 j v1 v2 h0 (by push_cast at hlt; omega) hok1
    apply this
    rw [show i1 + 1 = i1 + ((0 : ℕ) : ℤ) + 1 by push_cast; ring]
    exact hok2
  | succ d ih =>
    intro i1 j v1 v2 h0 hlt hok1 hok2
    have hmidN : i1 + (d : ℤ) + 1 < (cfg.N : ℤ) := by push_cast at hlt ⊢; omega
    obtain ⟨c, -, hokm⟩ := locate_2d_ok cfg s n m co uc sqrt_len
      (i1 + (d : ℤ) + 1) j hsum (by push_cast; omega) hmidN
    refine lt_trans (ih i1 j v1 _ h0 hmidN hok1 hokm) ?_
    have := locate_2d_x_step_pos cfg s n m co uc sqrt_len hsum hpos hss hcs
      hN2 hx (i1 + (d : ℤ) + 1) j _ v2 (by push_cast; omega)
      (by push_cast at hlt ⊢; omega) hokm
    apply this
    rw [show i1 + (d : ℤ) + 1 + 1 = i1 + ((d + 1 : ℕ) : ℤ) + 1 by
      push_cast; ring]
    exact hok2

/-- A calibrated 4×2 two-chip palette used for concrete instances. -/
def stTwoChip : PaletteState :=
  accept_calibration cfgTwoChip initState ⟨0, 0, 0⟩ ⟨4, 0, 0⟩ ⟨0, 1, 0⟩
    false false 4

/-- Concrete form of the calibrated two-chip palette state. -/
lemma stTwoChip_eq : stTwoChip =
    { calibrated := true, start_pt := some ⟨0, 0, 0⟩, n_pt := some ⟨4, 0, 0⟩,
      m_pt := some ⟨0, 1, 0⟩, N_hat := some ⟨1, 0, 0⟩,
      M_hat := some ⟨0, 1, 0⟩, length_calibrated := some 4 } := by
  rw [stTwoChip, accept_calibration_fresh]
  norm_num [cfgTwoChip, PaletteConfig.num_chips, PaletteConfig.chip_factor,
    PaletteConfig.plength, Vec3.sub, Vec3.smul, Vec3.divQ]

/-- `locate_2d(1, 0)` on the two-chip palette: still on chip 0. -/
lemma locate_twoChip_one : locate_2d cfgTwoChip stTwoChip 1 0
    = .ok ⟨1, 0, 0⟩ := by
  have hchip : chip_from_i cfgTwoChip.chip_dims 1 = some 0 := by decide
  rw [stTwoChip_eq]
  simp only [locate_2d, hchip]
  norm_num [Vec3.add, Vec3.smul, Vec3.sub]

/-- `locate_2d(2, 0)` on the two-chip palette: first column of chip 1,
shifted by the chip correction. -/
lemma locate_twoChip_two : locate_2d cfgTwoChip stTwoChip 2 0
    = .ok ⟨3, 0, 0⟩ := by
  have hchip : chip_from_i cfgTwoChip.chip_dims 2 = some 1 := by decide
  rw [stTwoChip_eq]
  simp only [locate_2d, hchip]
  norm_num [Vec3.add, Vec3.smul, Vec3.sub, cfgTwoChip,
    PaletteConfig.chip_factor, PaletteConfig.plength,
    PaletteConfig.num_chips]

/-- C7: Chip correction monotonicity — for a well-formed configuration
(positive spacings, positive chip dimensions summing to `N ≥ 2`) whose
long-axis displacement has positive first coordinate, and fixed `j`, the
first coordinate of `locate_2d(i, j)` is strictly increasing in `i` over
`[0, N)`; and the step from `i` to `i+1` equals the within-chip step
`N_hat.x = (1 - num_chips*chip_factor)*(n.x - s.x)/(N-1)` plus exactly
`chip_factor*(n.x - s.x)` precisely when a chip boundary lies between `i`
and `i+1`, and equals the within-chip step alone otherwise. -/
theorem chip_correction_monotonicity (cfg : PaletteConfig) (s n m : Vec3)
    (co uc : Bool) (sqrt_len : ℚ)
    (hsum : cfg.chip_dims.sum = cfg.N)
    (hpos : ∀ d ∈ cfg.chip_dims, 0 < d)
    (hss : 0 < cfg.sample_spacing) (hcs : 0 < cfg.chip_spacing)
    (hN2 : 2 ≤ cfg.N) (hx : s.x < n.x) :
    (∀ (i1 i2 j : ℤ) (v1 v2 : Vec3), 0 ≤ i1 → i1 < i2 →
      i2 < (cfg.N : ℤ) →
      locate_2d cfg (accept_calibration cfg initState s n m co uc sqrt_len)
        i1 j = .ok v1 →
      locate_2d cfg (accept_calibration cfg initState s n m co uc sqrt_len)
        i2 j = .ok v2 →
      v1.x < v2.x) ∧
    (∀ (i j : ℤ) (v v' : Vec3), 0 ≤ i → i + 1 < (cfg.N : ℤ) →
      locate_2d cfg (accept_calibration cfg initState s n m co uc sqrt_len)
        i j = .ok v →
      locate_2d cfg (accept_calibration cfg initState s n m co uc sqrt_len)
        (i + 1) j = .ok v' →
      (chip_boundary cfg.chip_dims (i + 1) →
        v'.x - v.x
          = (1 - (cfg.num_chips : ℚ) * cfg.chip_factor) * (n.x - s.x)
              / ((cfg.N : ℚ) - 1)
            + cfg.chip_factor * (n.x - s.x)) ∧
      (¬ chip_boundary cfg.chip_dims (i + 1) →
        v'.x - v.x
          = (1 - (cfg.num_chips : ℚ) * cfg.chip_factor) * (n.x - s.x)
              / ((cfg.N : ℚ) - 1))) := by
  constructor
  · intro i1 i2 j v1 v2 h0 hlt hN hok1 hok2
    apply locate_2d_x_mono cfg s n m co uc sqrt_len hsum hpos hss hcs hN2 hx
      (i2 - i1 - 1).toNat i1 j v1 v2 h0 (by omega) hok1
    rw [show i1 + ((i2 - i1 - 1).toNat : ℤ) + 1 = i2 by omega]
    exact hok2
  · exact locate_2d_x_step cfg s n m co uc sqrt_len hsum hpos

/-- Closed instance of the chip-correction monotonicity on the two-chip
palette: going from column 1 to column 2 crosses the chip boundary at 2,
the position increases, and the step carries the extra
`chip_factor*(n.x - s.x)` term. -/
theorem chip_correction_monotonicity_witness :
    cfgTwoChip.chip_dims.sum = cfgTwoChip.N ∧
    (Vec3.mk (1 : ℚ) 0 0).x < (Vec3.mk (3 : ℚ) 0 0).x ∧
    (Vec3.mk (3 : ℚ) 0 0).x - (Vec3.mk (1 : ℚ) 0 0).x
      = (1 - (cfgTwoChip.num_chips : ℚ) * cfgTwoChip.chip_factor)
          * ((Vec3.mk (4 : ℚ) 0 0).x - (Vec3.mk (0 : ℚ) 0 0).x)
          / ((cfgTwoChip.N : ℚ) - 1)
        + cfgTwoChip.chip_factor
          * ((Vec3.mk (4 : ℚ) 0 0).x - (Vec3.mk (0 : ℚ) 0 0).x) :=
  ⟨by decide,
   (chip_correction_monotonicity cfgTwoChip ⟨0, 0, 0⟩ ⟨4, 0, 0⟩ ⟨0, 1, 0⟩
      false false 4 (by decide) (by decide) (by norm_num [cfgTwoChip])
      (by norm_num [cfgTwoChip]) (by decide) (by norm_num)).1
     1 2 0 ⟨1, 0, 0⟩ ⟨3, 0, 0⟩ (by decide) (by decide) (by decide)
     locate_twoChip_one locate_twoChip_two,
   ((chip_correction_monotonicity cfgTwoChip ⟨0, 0, 0⟩ ⟨4, 0, 0⟩ ⟨0, 1, 0⟩
      false false 4 (by decide) (by decide) (by norm_num [cfgTwoChip])
      (by norm_num [cfgTwoChip]) (by decide) (by norm_num)).2
     1 0 ⟨1, 0, 0⟩ ⟨3, 0, 0⟩ (by decide) (by decide)
     locate_twoChip_one locate_twoChip_two).1
     ⟨1, by decide, by decide, by decide⟩⟩
